import Mathlib

/-!
Verification of the Turbo-Compass matrix-oracle layer
(compass/turbo_compass.py): the argument-list editor, the append-only
observation cache, the identifier manifests, and the batched
observe-entries protocol of the CompassOracle.
-/

namespace TurboCompass

/-! Section: Argument-list editor

Shallow embedding of the module-level helpers set_argument, pop_argument
and get_argument.  Python lists of string tokens become List String;
in-place mutation becomes returning the new list; a raised exception
becomes none.
-/

/-- Core loop of python set_argument: scan indices 0..len-2 for the flag
name; on the first hit overwrite the token that follows it and stop;
if the loop finds nothing, append the flag and its value at the end. -/
def set_argument_list (args : List String) (n v : String) : List String :=
  match args with
  | a :: b :: rest =>
      if a = n then a :: v :: rest else a :: set_argument_list (b :: rest) n v
  | _ => args ++ [n, v]

/-- A python value that may or may not be a string
(models the isinstance checks of set_argument). -/
inductive PyVal where
  | str (s : String)
  | nonStr (tag : Nat)
deriving DecidableEq

/-- Whether a python value is a string. -/
def PyVal.isStr : PyVal → Bool
  | .str _ => true
  | _ => false

/-- python set_argument including its isinstance guard: a non-string flag
name or value raises ValueError (modelled as none) before anything is
modified. -/
def set_argument (args : List String) (nameV valV : PyVal) : Option (List String) :=
  match nameV, valV with
  | .str n, .str v => some (set_argument_list args n v)
  | _, _ => none

/-- Loop of python get_argument: scan indices 0..len-2; return the token
after the first hit; falling off the end is the assert False (none). -/
def getLoop : List String → String → Option String
  | a :: b :: rest, n => if a = n then some b else getLoop (b :: rest) n
  | _, _ => none

/-- python get_argument: the empty string when the flag is absent, the
token after its first occurrence otherwise; assertion failure (none) when
the flag occurs but only as the very last token. -/
def get_argument (args : List String) (n : String) : Option String :=
  if n ∈ args then getLoop args n else some ""

/-- Loop of python pop_argument: find the first index whose token is the
flag and return the list with the flag and its value sliced out, together
with that value. -/
def popLoop : List String → String → Option (List String × String)
  | a :: b :: rest, n =>
      if a = n then some (rest, b)
      else (popLoop (b :: rest) n).map fun pr => (a :: pr.1, pr.2)
  | _, _ => none

/-- python pop_argument: a copy of the list and the empty string when the
flag is absent; otherwise the list with the first flag/value pair removed
together with the removed value; assertion failure (none) when the flag
occurs but only as the very last token. -/
def pop_argument (args : List String) (n : String) : Option (List String × String) :=
  if n ∈ args then popLoop args n else some (args, "")

theorem set_argument_list_found (pre suf : List String) (n x v : String)
    (h : n ∉ pre) :
    set_argument_list (pre ++ n :: x :: suf) n v = pre ++ n :: v :: suf := by
  induction pre with
  | nil => simp [set_argument_list]
  | cons p pre ih =>
      have hp : p ≠ n := by
        intro he
        exact h (by simp [he])
      have hpre : n ∉ pre := fun hm => h (List.mem_cons_of_mem _ hm)
      cases hq : pre ++ n :: x :: suf with
      | nil => exact absurd hq (by simp)
      | cons q rest =>
          have : set_argument_list (p :: q :: rest) n v
              = p :: set_argument_list (q :: rest) n v := by
            simp [set_argument_list, hp]
          calc set_argument_list ((p :: pre) ++ n :: x :: suf) n v
              = set_argument_list (p :: q :: rest) n v := by rw [List.cons_append, hq]
            _ = p :: set_argument_list (q :: rest) n v := this
            _ = p :: set_argument_list (pre ++ n :: x :: suf) n v := by rw [hq]
            _ = p :: (pre ++ n :: v :: suf) := by rw [ih hpre]
            _ = (p :: pre) ++ n :: v :: suf := by simp

theorem set_argument_list_append (args : List String) (n v : String)
    (h : n ∉ args.dropLast) :
    set_argument_list args n v = args ++ [n, v] := by
  induction args with
  | nil => rfl
  | cons a rest ih =>
      cases rest with
      | nil => rfl
      | cons b rest2 =>
          have ha : a ≠ n := by
            intro he
            exact h (by simp [List.dropLast, he])
          have hrest : n ∉ (b :: rest2).dropLast := by
            intro hm
            exact h (by simp [List.dropLast, hm])
          simp [set_argument_list, ha, ih hrest]

/-- C7 (amended): set overwrites the token following the first non-final
occurrence of the flag name and changes nothing else; when the flag is
absent from all non-final positions it appends the flag and value at the
end; a non-string flag name or value raises a usage error (none) without
producing a list. -/
theorem set_argument_spec (args : List String) (n v : String) :
    (∀ pre x suf, args = pre ++ n :: x :: suf → n ∉ pre →
        set_argument_list args n v = pre ++ n :: v :: suf) ∧
    (n ∉ args.dropLast → set_argument_list args n v = args ++ [n, v]) ∧
    (∀ (args2 : List String) (nameV valV : PyVal),
        nameV.isStr = false ∨ valV.isStr = false →
        set_argument args2 nameV valV = none) := by
  refine ⟨?_, ?_, ?_⟩
  · intro pre x suf he hpre
    subst he
    exact set_argument_list_found pre suf n x v hpre
  · exact set_argument_list_append args n v
  · intro args2 nameV valV hns
    cases nameV with
    | nonStr t => rfl
    | str s =>
        cases valV with
        | nonStr t => rfl
        | str s2 => simp [PyVal.isStr] at hns

/-- Witness for C7: concrete overwrite, append and usage-error cases. -/
theorem set_argument_spec_witness :
    set_argument_list ["--a", "1"] "--a" "2" = ["--a", "2"] ∧
    set_argument_list ["x"] "--b" "7" = ["x", "--b", "7"] ∧
    set_argument [] (PyVal.nonStr 0) (PyVal.str "v") = none := by
  refine ⟨?_, ?_, ?_⟩
  · exact (set_argument_spec ["--a", "1"] "--a" "2").1 [] "1" [] rfl (by simp)
  · exact (set_argument_spec ["x"] "--b" "7").2.1 (by simp)
  · exact (set_argument_spec [] "--b" "7").2.2 [] (PyVal.nonStr 0) (PyVal.str "v")
      (Or.inl rfl)

/-- C7 counterexample: when the flag name is present only as the very last
token, set does not overwrite in place; it appends the pair, so the list
grows and the flag is duplicated, contradicting the claim that an existing
flag's value token is overwritten with nothing else changing. -/
theorem set_argument_last_token_counterexample :
    "--f" ∈ (["--f"] : List String) ∧
    set_argument_list ["--f"] "--f" "v" = ["--f", "--f", "v"] ∧
    (set_argument_list ["--f"] "--f" "v").length ≠ (["--f"] : List String).length := by
  refine ⟨by decide, rfl, by decide⟩

theorem getLoop_found (pre suf : List String) (n x : String) (h : n ∉ pre) :
    getLoop (pre ++ n :: x :: suf) n = some x := by
  induction pre with
  | nil => simp [getLoop]
  | cons p pre ih =>
      have hp : p ≠ n := by
        intro he
        exact h (by simp [he])
      have hpre : n ∉ pre := fun hm => h (List.mem_cons_of_mem _ hm)
      cases hq : pre ++ n :: x :: suf with
      | nil => exact absurd hq (by simp)
      | cons q rest =>
          calc getLoop ((p :: pre) ++ n :: x :: suf) n
              = getLoop (p :: q :: rest) n := by rw [List.cons_append, hq]
            _ = getLoop (q :: rest) n := by simp [getLoop, hp]
            _ = getLoop (pre ++ n :: x :: suf) n := by rw [hq]
            _ = some x := ih hpre

theorem getLoop_last (args : List String) (n : String) (h : n ∉ args.dropLast) :
    getLoop args n = none := by
  induction args with
  | nil => rfl
  | cons a rest ih =>
      cases rest with
      | nil => rfl
      | cons b rest2 =>
          have ha : a ≠ n := by
            intro he
            exact h (by simp [List.dropLast, he])
          have hrest : n ∉ (b :: rest2).dropLast := by
            intro hm
            exact h (by simp [List.dropLast, hm])
          simp [getLoop, ha, ih hrest]

/-- C8: get returns the token following the first occurrence of the flag
when that occurrence is non-final, the empty string when the flag is
absent, and fails the assertion (none) when the flag occurs only as the
last token. -/
theorem get_argument_spec (args : List String) (n : String) :
    (n ∉ args → get_argument args n = some "") ∧
    (∀ pre x suf, args = pre ++ n :: x :: suf → n ∉ pre →
        get_argument args n = some x) ∧
    (n ∈ args → n ∉ args.dropLast → get_argument args n = none) := by
  refine ⟨?_, ?_, ?_⟩
  · intro h
    simp [get_argument, h]
  · intro pre x suf he hpre
    have hmem : n ∈ args := by subst he; simp
    rw [get_argument, if_pos hmem, he]
    exact getLoop_found pre suf n x hpre
  · intro h1 h2
    rw [get_argument, if_pos h1]
    exact getLoop_last args n h2

/-- Witness for C8: concrete found, absent and flag-as-last-token cases. -/
theorem get_argument_spec_witness :
    get_argument ["a", "--f", "v"] "--f" = some "v" ∧
    get_argument ["a"] "--f" = some "" ∧
    get_argument ["a", "--f"] "--f" = none := by
  refine ⟨?_, ?_, ?_⟩
  · exact (get_argument_spec ["a", "--f", "v"] "--f").2.1 ["a"] "v" [] rfl (by simp)
  · exact (get_argument_spec ["a"] "--f").1 (by simp)
  · exact (get_argument_spec ["a", "--f"] "--f").2.2 (by simp) (by simp [List.dropLast])

theorem popLoop_found (pre suf : List String) (n x : String) (h : n ∉ pre) :
    popLoop (pre ++ n :: x :: suf) n = some (pre ++ suf, x) := by
  induction pre with
  | nil => simp [popLoop]
  | cons p pre ih =>
      have hp : p ≠ n := by
        intro he
        exact h (by simp [he])
      have hpre : n ∉ pre := fun hm => h (List.mem_cons_of_mem _ hm)
      cases hq : pre ++ n :: x :: suf with
      | nil => exact absurd hq (by simp)
      | cons q rest =>
          calc popLoop ((p :: pre) ++ n :: x :: suf) n
              = popLoop (p :: q :: rest) n := by rw [List.cons_append, hq]
            _ = (popLoop (q :: rest) n).map fun pr => (p :: pr.1, pr.2) := by
                  simp [popLoop, hp]
            _ = (popLoop (pre ++ n :: x :: suf) n).map fun pr => (p :: pr.1, pr.2) := by
                  rw [hq]
            _ = some ((p :: pre) ++ suf, x) := by rw [ih hpre]; rfl

/-- C9: pop returns the list with the first flag/value pair removed and the
removed value when the first occurrence of the flag is non-final, and a
copy of the list with the empty string when the flag is absent; the input
list itself is never modified (the embedding is a pure function of it). -/
theorem pop_argument_spec (args : List String) (n : String) :
    (n ∉ args → pop_argument args n = some (args, "")) ∧
    (∀ pre x suf, args = pre ++ n :: x :: suf → n ∉ pre →
        pop_argument args n = some (pre ++ suf, x)) := by
  refine ⟨?_, ?_⟩
  · intro h
    simp [pop_argument, h]
  · intro pre x suf he hpre
    have hmem : n ∈ args := by subst he; simp
    rw [pop_argument, if_pos hmem, he]
    exact popLoop_found pre suf n x hpre

/-- Witness for C9: concrete removed and absent cases. -/
theorem pop_argument_spec_witness :
    pop_argument ["compass", "--turbo", "0.95"] "--turbo" = some (["compass"], "0.95") ∧
    pop_argument ["compass"] "--turbo" = some (["compass"], "") := by
  refine ⟨?_, ?_⟩
  · exact (pop_argument_spec ["compass", "--turbo", "0.95"] "--turbo").2
      ["compass"] "0.95" [] rfl (by simp)
  · exact (pop_argument_spec ["compass"] "--turbo").1 (by simp)

/-- C10: a flag stored with an empty-string value token is indistinguishable
from an absent flag through the sentinels of get and pop: both return the
empty string in either situation. -/
theorem empty_value_sentinel_ambiguity :
    "--f" ∈ (["--f", ""] : List String) ∧
    get_argument ["--f", ""] "--f" = some "" ∧
    get_argument ["--g"] "--f" = some "" ∧
    pop_argument ["--f", ""] "--f" = some ([], "") ∧
    pop_argument ["--g"] "--f" = some (["--g"], "") := by
  refine ⟨by decide, by decide, by decide, by decide, by decide⟩

/-! Section: Character-level string model

The cache and manifest files are modelled at the character level: a python
string is a List Char.  splitOnChar models str.split of a single-character
separator; joinSep models sep.join.
-/

/-- A python string, as its list of characters. -/
abbrev Str := List Char

/-- python sep.join(pieces) for a list-of-characters separator. -/
def joinSep (sep : Str) : List Str → Str
  | [] => []
  | [x] => x
  | x :: y :: rest => x ++ sep ++ joinSep sep (y :: rest)

/-- python s.split(sep) for a one-character separator: always returns at
least one piece; the separator itself appears in no piece. -/
def splitOnChar (sep : Char) : Str → List Str
  | [] => [[]]
  | c :: rest =>
      match splitOnChar sep rest with
      | [] => [[]]
      | s :: ss => if c = sep then [] :: s :: ss else (c :: s) :: ss

theorem splitOnChar_ne_nil (sep : Char) (s : Str) : splitOnChar sep s ≠ [] := by
  cases s with
  | nil => simp [splitOnChar]
  | cons c rest =>
      rw [splitOnChar]
      cases h : splitOnChar sep rest with
      | nil => simp
      | cons a l =>
          by_cases hc : c = sep <;> simp [hc]

theorem splitOnChar_no_sep (sep : Char) (s : Str) (h : sep ∉ s) :
    splitOnChar sep s = [s] := by
  induction s with
  | nil => rfl
  | cons c rest ih =>
      have hc : c ≠ sep := by
        intro he
        exact h (by simp [he])
      have hrest : sep ∉ rest := fun hm => h (List.mem_cons_of_mem _ hm)
      rw [splitOnChar, ih hrest]
      simp [hc]

theorem splitOnChar_sep_append (sep : Char) (xs ys : Str) (h : sep ∉ xs) :
    splitOnChar sep (xs ++ sep :: ys) = xs :: splitOnChar sep ys := by
  induction xs with
  | nil =>
      rw [List.nil_append, splitOnChar]
      cases hq : splitOnChar sep ys with
      | nil => exact absurd hq (splitOnChar_ne_nil sep ys)
      | cons a l => simp
  | cons c rest ih =>
      have hc : c ≠ sep := by
        intro he
        exact h (by simp [he])
      have hrest : sep ∉ rest := fun hm => h (List.mem_cons_of_mem _ hm)
      rw [List.cons_append, splitOnChar, ih hrest]
      cases hq : rest ++ sep :: ys with
      | nil => exact absurd hq (by simp)
      | cons q l => simp [hc]

theorem splitOnChar_joinSep (sep : Char) (l : List Str) (hne : l ≠ [])
    (hclean : ∀ s ∈ l, sep ∉ s) :
    splitOnChar sep (joinSep [sep] l) = l := by
  induction l with
  | nil => exact absurd rfl hne
  | cons x rest ih =>
      cases rest with
      | nil =>
          rw [joinSep]
          exact splitOnChar_no_sep sep x (hclean x (by simp))
      | cons y rest2 =>
          have hx : sep ∉ x := hclean x (by simp)
          have hrest : ∀ s ∈ y :: rest2, sep ∉ s := by
            intro s hs
            exact hclean s (List.mem_cons_of_mem _ hs)
          rw [joinSep]
          have : x ++ [sep] ++ joinSep [sep] (y :: rest2)
              = x ++ sep :: joinSep [sep] (y :: rest2) := by simp
          rw [this, splitOnChar_sep_append sep x _ hx, ih (by simp) hrest]

theorem joinSep_inj (sep : Char) (l1 l2 : List Str)
    (h1 : l1 ≠ []) (h2 : l2 ≠ [])
    (hc1 : ∀ s ∈ l1, sep ∉ s) (hc2 : ∀ s ∈ l2, sep ∉ s)
    (he : joinSep [sep] l1 = joinSep [sep] l2) : l1 = l2 := by
  have := congrArg (splitOnChar sep) he
  rwa [splitOnChar_joinSep sep l1 h1 hc1, splitOnChar_joinSep sep l2 h2 hc2] at this

/-! Section: Identifier manifests

Embedding of validate_cache_and_write_out_list_of_strings (inside
CompassOracle._save_cell_names_and_reaction_ids_for_debugging).  The file
system state at the manifest path is an Option Str (none when absent); the
operation returns the new file state, or none when it raises the
corruption exception.
-/

/-- The serialized manifest: newline-join of the names plus a trailing
newline (python: backslash-n join of names, plus backslash-n). -/
def manifestContent (names : List Str) : Str :=
  joinSep ['\n'] names ++ ['\n']

/-- validate_cache_and_write_out_list_of_strings: if the file exists its
content must equal the serialized manifest byte for byte (else raise,
modelled none); if it matches nothing is written; if the file is absent
the manifest is written. -/
def validateOrWriteManifest (fileState : Option Str) (names : List Str) :
    Option (Option Str) :=
  match fileState with
  | some contents =>
      if contents = manifestContent names then some (some contents) else none
  | none => some (some (manifestContent names))

theorem manifestContent_inj (l1 l2 : List Str)
    (h1 : l1 ≠ []) (h2 : l2 ≠ [])
    (hc1 : ∀ s ∈ l1, '\n' ∉ s) (hc2 : ∀ s ∈ l2, '\n' ∉ s)
    (he : manifestContent l1 = manifestContent l2) : l1 = l2 := by
  apply joinSep_inj '\n' l1 l2 h1 h2 hc1 hc2
  have := congrArg List.dropLast he
  simpa [manifestContent] using this

/-- C3 (amended): writing a manifest and re-validating against the same
identifier sequence never raises and never rewrites the file; an existing
manifest is never rewritten by any validation that returns; and for
nonempty sequences of newline-free identifiers, re-validating against any
different sequence always raises. -/
theorem manifest_validation_spec (names names2 : List Str)
    (hne : names ≠ []) (hne2 : names2 ≠ [])
    (hcl : ∀ s ∈ names, '\n' ∉ s) (hcl2 : ∀ s ∈ names2, '\n' ∉ s) :
    validateOrWriteManifest none names = some (some (manifestContent names)) ∧
    validateOrWriteManifest (some (manifestContent names)) names
      = some (some (manifestContent names)) ∧
    (names ≠ names2 →
      validateOrWriteManifest (some (manifestContent names)) names2 = none) ∧
    (∀ (c : Str) (ns : List Str) (st : Option Str),
      validateOrWriteManifest (some c) ns = some st → st = some c) := by
  refine ⟨rfl, by simp [validateOrWriteManifest], ?_, ?_⟩
  · intro hdiff
    have hcne : manifestContent names ≠ manifestContent names2 := by
      intro he
      exact hdiff (manifestContent_inj names names2 hne hne2 hcl hcl2 he)
    simp [validateOrWriteManifest, hcne]
  · intro c ns st hv
    by_cases hc : c = manifestContent ns
    · simp [validateOrWriteManifest, hc] at hv
      rw [hc]
      exact hv.symm
    · simp [validateOrWriteManifest, hc] at hv

/-- Witness for C3's amended theorem at concrete single-character
identifier lists. -/
theorem manifest_validation_spec_witness :
    validateOrWriteManifest none [['a']] = some (some (manifestContent [['a']])) ∧
    validateOrWriteManifest (some (manifestContent [['a']])) [['a']]
      = some (some (manifestContent [['a']])) ∧
    validateOrWriteManifest (some (manifestContent [['a']])) [['b']] = none := by
  have h := manifest_validation_spec [['a']] [['b']]
    (by simp) (by simp) (by decide) (by decide)
  exact ⟨h.1, h.2.1, h.2.2.1 (by decide)⟩

/-- C3 counterexample: the empty identifier sequence and the sequence
holding one empty identifier serialize to the same manifest, so
re-validating the manifest written for the former against the latter
does not raise even though the sequences differ. -/
theorem manifest_validation_counterexample :
    ([] : List Str) ≠ [([] : Str)] ∧
    manifestContent [] = manifestContent [[]] ∧
    validateOrWriteManifest (some (manifestContent [])) [[]]
      = some (some (manifestContent [])) := by
  refine ⟨by simp, by decide, by decide⟩

/-! Section: Append-only observation cache

Embedding of CompassOracle._cache_observations and _load_cache.  The cache
file content is a Str.  Row and column indices are rendered in standard
base-10 (python f-string) and parsed back with int; the float value is
modelled by its repr token, since python guarantees float(repr(x)) == x,
so serialization and parsing of the value are the identity on the token.
-/

/-- The numeric value of a decimal digit character, none otherwise
(the digits accepted by python int for the tokens this cache writes). -/
def digitVal (c : Char) : Option Nat :=
  if '0' ≤ c ∧ c ≤ '9' then some (c.toNat - 48) else none

/-- Fuel-driven base-10 rendering, most significant digit first;
empty for zero. -/
def natToCharsAux : Nat → Nat → Str
  | 0, _ => []
  | fuel + 1, n =>
      if n = 0 then [] else natToCharsAux fuel (n / 10) ++ [Nat.digitChar (n % 10)]

/-- python str(n) for a nonnegative int: standard base-10 rendering. -/
def natToChars (n : Nat) : Str :=
  if n = 0 then ['0'] else natToCharsAux n n

/-- Accumulator loop of base-10 parsing. -/
def parseNatAux : Nat → Str → Option Nat
  | acc, [] => some acc
  | acc, c :: cs => (digitVal c).bind fun d => parseNatAux (10 * acc + d) cs

/-- python int(s) restricted to plain digit strings, the only shape this
cache ever writes for its index fields. -/
def parseNat (s : Str) : Option Nat :=
  if s = [] then none else parseNatAux 0 s

/-- One cache line without its newline: row, space, col, space, value. -/
def lineOf (e : Nat × Nat × Str) : Str :=
  natToChars e.1 ++ ' ' :: (natToChars e.2.1 ++ ' ' :: e.2.2)

/-- One serialized observation of _cache_observations:
the f-string "row col value" plus a newline. -/
def serializeEntry (e : Nat × Nat × Str) : Str := lineOf e ++ ['\n']

/-- CompassOracle._cache_observations: serialize the entries in order and
append them to the current cache file content (mode "a+", so the existing
content is kept unchanged). -/
def cache_observations (entries : List (Nat × Nat × Str)) (content : Str) : Str :=
  content ++ (entries.map serializeEntry).flatten

/-- Iterating a python file object line by line, stripping each line's
trailing newline: split on the newline character and drop the final empty
piece that a trailing newline (or empty file) produces. -/
def cacheLines (content : Str) : List Str :=
  if (splitOnChar '\n' content).getLast? = some [] then
    (splitOnChar '\n' content).dropLast
  else splitOnChar '\n' content

/-- One pass of the _load_cache loop: the line must split on single spaces
into exactly three fields; the first two are parsed as ints; float parsing
of the value token is modelled as accepting any nonempty token. -/
def parseLine (line : Str) : Option (Nat × Nat × Str) :=
  match splitOnChar ' ' line with
  | [a, b, v] =>
      match parseNat a, parseNat b with
      | some r, some c => if v = [] then none else some (r, c, v)
      | _, _ => none
  | _ => none

/-- The _load_cache loop over all lines, in file order; a malformed line
is a fatal parse error (none). -/
def parseAll : List Str → Option (List (Nat × Nat × Str))
  | [] => some []
  | l :: ls =>
      match parseLine l, parseAll ls with
      | some e, some es => some (e :: es)
      | _, _ => none

/-- CompassOracle._load_cache: parse the whole cache file into the list of
(row, col, value) observations. -/
def load_cache (content : Str) : Option (List (Nat × Nat × Str)) :=
  parseAll (cacheLines content)

/-- A value token as python repr of a float produces it: nonempty, with no
space and no newline. -/
def validTok (v : Str) : Prop := v ≠ [] ∧ ' ' ∉ v ∧ '\n' ∉ v

instance (v : Str) : Decidable (validTok v) := by
  unfold validTok
  infer_instance

theorem parseNatAux_single (m : Nat) (c : Char) (d : Nat) (h : digitVal c = some d) :
    parseNatAux m [c] = some (10 * m + d) := by
  rw [parseNatAux, h, Option.some_bind', parseNatAux]

theorem digit_facts (d : Nat) (hd : d < 10) :
    digitVal (Nat.digitChar d) = some d ∧
    Nat.digitChar d ≠ ' ' ∧ Nat.digitChar d ≠ '\n' := by
  interval_cases d <;> exact ⟨by decide, by decide, by decide⟩

theorem parseNatAux_append (A B : Str) (acc : Nat) :
    parseNatAux acc (A ++ B)
      = (parseNatAux acc A).bind fun m => parseNatAux m B := by
  induction A generalizing acc with
  | nil => simp [parseNatAux]
  | cons c cs ih =>
      rw [List.cons_append, parseNatAux, parseNatAux]
      cases digitVal c with
      | none => simp
      | some d => simp [ih]

theorem length_eq_zero_list {α : Type} {l : List α} (h : l.length = 0) : l = [] := by
  cases l with
  | nil => rfl
  | cons a l2 => simp at h

theorem natToCharsAux_spec (fuel : Nat) :
    ∀ n acc, n ≤ fuel →
      parseNatAux acc (natToCharsAux fuel n)
        = some (acc * 10 ^ (natToCharsAux fuel n).length + n) := by
  induction fuel with
  | zero =>
      intro n acc hn
      have : n = 0 := Nat.le_zero.mp hn
      subst this
      simp [natToCharsAux, parseNatAux]
  | succ fuel ih =>
      intro n acc hn
      by_cases h0 : n = 0
      · subst h0
        simp [natToCharsAux, parseNatAux]
      · have hdiv : n / 10 ≤ fuel := by
          have : n / 10 < n := Nat.div_lt_self (Nat.pos_of_ne_zero h0) (by norm_num)
          omega
        have hmod : n % 10 < 10 := Nat.mod_lt n (by norm_num)
        have hdv := (digit_facts (n % 10) hmod).1
        rw [natToCharsAux, if_neg h0, parseNatAux_append, ih (n / 10) acc hdiv,
          Option.some_bind', parseNatAux_single _ _ _ hdv,
          List.length_append, List.length_singleton]
        have hpow : acc * 10 ^ ((natToCharsAux fuel (n / 10)).length + 1)
            = acc * 10 ^ (natToCharsAux fuel (n / 10)).length * 10 := by ring
        rw [hpow]
        simp only [Option.some.injEq]
        generalize acc * 10 ^ (natToCharsAux fuel (n / 10)).length = K
        have hdm : 10 * (n / 10) + n % 10 = n := Nat.div_add_mod n 10
        omega

theorem parseNat_natToChars (n : Nat) : parseNat (natToChars n) = some n := by
  by_cases h0 : n = 0
  · subst h0; decide
  · have hne : natToCharsAux n n ≠ [] := by
      cases n with
      | zero => exact absurd rfl h0
      | succ k =>
          rw [natToCharsAux, if_neg h0]
          simp
    rw [natToChars, if_neg h0, parseNat, if_neg hne,
      natToCharsAux_spec n n 0 (Nat.le_refl n)]
    simp

theorem natToCharsAux_clean (fuel : Nat) :
    ∀ n, ' ' ∉ natToCharsAux fuel n ∧ '\n' ∉ natToCharsAux fuel n := by
  induction fuel with
  | zero => intro n; simp [natToCharsAux]
  | succ fuel ih =>
      intro n
      by_cases h0 : n = 0
      · simp [natToCharsAux, h0]
      · have hmod : n % 10 < 10 := Nat.mod_lt n (by norm_num)
        have hd := digit_facts (n % 10) hmod
        rw [natToCharsAux, if_neg h0]
        constructor
        · intro hm
          rcases List.mem_append.mp hm with hm | hm
          · exact (ih (n / 10)).1 hm
          · exact hd.2.1 (List.mem_singleton.mp hm).symm
        · intro hm
          rcases List.mem_append.mp hm with hm | hm
          · exact (ih (n / 10)).2 hm
          · exact hd.2.2 (List.mem_singleton.mp hm).symm

theorem natToChars_clean (n : Nat) :
    ' ' ∉ natToChars n ∧ '\n' ∉ natToChars n := by
  by_cases h0 : n = 0
  · subst h0; decide
  · rw [natToChars, if_neg h0]
    exact natToCharsAux_clean n n

theorem splitOnChar_lineOf (e : Nat × Nat × Str) (hv : validTok e.2.2) :
    splitOnChar ' ' (lineOf e) = [natToChars e.1, natToChars e.2.1, e.2.2] := by
  obtain ⟨r, c, v⟩ := e
  obtain ⟨hv1, hv2, hv3⟩ := hv
  rw [lineOf, splitOnChar_sep_append ' ' _ _ (natToChars_clean r).1,
    splitOnChar_sep_append ' ' _ _ (natToChars_clean c).1,
    splitOnChar_no_sep ' ' v hv2]

theorem parseLine_lineOf (e : Nat × Nat × Str) (hv : validTok e.2.2) :
    parseLine (lineOf e) = some e := by
  obtain ⟨r, c, v⟩ := e
  rw [parseLine, splitOnChar_lineOf (r, c, v) hv]
  simp [parseNat_natToChars, hv.1]

theorem lineOf_clean (e : Nat × Nat × Str) (hv : validTok e.2.2) :
    '\n' ∉ lineOf e := by
  obtain ⟨r, c, v⟩ := e
  intro hm
  rw [lineOf] at hm
  rcases List.mem_append.mp hm with hm | hm
  · exact (natToChars_clean r).2 hm
  · rcases List.mem_cons.mp hm with hm | hm
    · exact absurd hm.symm (by decide)
    · rcases List.mem_append.mp hm with hm | hm
      · exact (natToChars_clean c).2 hm
      · rcases List.mem_cons.mp hm with hm | hm
        · exact absurd hm.symm (by decide)
        · exact hv.2.2 hm

theorem parseAll_append (L1 L2 : List Str) :
    parseAll (L1 ++ L2)
      = (parseAll L1).bind fun a => (parseAll L2).map fun b => a ++ b := by
  induction L1 with
  | nil =>
      cases h : parseAll L2 <;> simp [parseAll, h]
  | cons l ls ih =>
      rw [List.cons_append, parseAll, parseAll, ih]
      cases parseLine l with
      | none => simp
      | some e =>
          cases parseAll ls with
          | none => simp
          | some a =>
              cases parseAll L2 <;> simp

theorem parseAll_lines (entries : List (Nat × Nat × Str))
    (hv : ∀ e ∈ entries, validTok e.2.2) :
    parseAll (entries.map lineOf) = some entries := by
  induction entries with
  | nil => rfl
  | cons e es ih =>
      rw [List.map_cons, parseAll, parseLine_lineOf e (hv e (by simp)),
        ih fun x hx => hv x (List.mem_cons_of_mem _ hx)]

/-- First occurrence split: any list containing an element splits at that
element's first occurrence. -/
theorem first_split {α : Type} [DecidableEq α] (sep : α) :
    ∀ (l : List α), sep ∈ l → ∃ x rest, sep ∉ x ∧ l = x ++ sep :: rest := by
  intro l
  induction l with
  | nil => intro h; exact absurd h (by simp)
  | cons c rest ih =>
      intro h
      by_cases hc : c = sep
      · exact ⟨[], rest, by simp, by simp [hc]⟩
      · have hmem : sep ∈ rest := by
          rcases List.mem_cons.mp h with h | h
          · exact absurd h.symm hc
          · exact h
        obtain ⟨x, r2, hx, hl⟩ := ih hmem
        refine ⟨c :: x, r2, ?_, by simp [hl]⟩
        intro hmem2
        rcases List.mem_cons.mp hmem2 with h1 | h1
        · exact hc h1.symm
        · exact hx h1

theorem exists_lines_aux :
    ∀ (len : Nat) (content : Str), content.length ≤ len →
      (content = [] ∨ content.getLast? = some '\n') →
      ∃ L : List Str, (∀ l ∈ L, '\n' ∉ l)
        ∧ content = (L.map (fun l => l ++ ['\n'])).flatten := by
  intro len
  induction len with
  | zero =>
      intro content hlen hc
      have hnil : content = [] := length_eq_zero_list (Nat.le_zero.mp hlen)
      exact ⟨[], by simp, by simp [hnil]⟩
  | succ len ih =>
      intro content hlen hc
      rcases hc with hc | hc
      · exact ⟨[], by simp, by simp [hc]⟩
      · have hmemc : '\n' ∈ content := by
          have := List.dropLast_append_getLast? '\n' hc
          rw [← this]
          simp
        obtain ⟨x, rest, hx, hsplit⟩ := first_split '\n' content hmemc
        cases hrest : rest with
        | nil =>
            refine ⟨[x], by simpa using hx, ?_⟩
            rw [hsplit, hrest]
            simp
        | cons r0 rest2 =>
            have hlast : rest.getLast? = some '\n' := by
              rw [hsplit, List.getLast?_append_of_ne_nil x (by simp)] at hc
              rw [hrest] at hc ⊢
              rw [List.getLast?_cons_cons] at hc
              exact hc
            have hlen2 : rest.length ≤ len := by
              rw [hsplit] at hlen
              simp at hlen
              omega
            obtain ⟨L2, hL2c, hL2⟩ := ih rest hlen2 (Or.inr hlast)
            refine ⟨x :: L2, ?_, ?_⟩
            · intro l hl
              rcases List.mem_cons.mp hl with hl | hl
              · exact hl ▸ hx
              · exact hL2c l hl
            · rw [hsplit, List.map_cons, List.flatten_cons, ← hL2]
              simp

theorem exists_lines (content : Str)
    (hc : content = [] ∨ content.getLast? = some '\n') :
    ∃ L : List Str, (∀ l ∈ L, '\n' ∉ l)
      ∧ content = (L.map (fun l => l ++ ['\n'])).flatten :=
  exists_lines_aux content.length content (Nat.le_refl _) hc

theorem split_join_append (L : List Str) (B : Str)
    (hclean : ∀ l ∈ L, '\n' ∉ l) :
    splitOnChar '\n' ((L.map (fun l => l ++ ['\n'])).flatten ++ B)
      = L ++ splitOnChar '\n' B := by
  induction L with
  | nil => simp
  | cons l ls ih =>
      have hl : '\n' ∉ l := hclean l (by simp)
      have hls : ∀ p ∈ ls, '\n' ∉ p := fun p hp => hclean p (List.mem_cons_of_mem _ hp)
      rw [List.map_cons, List.flatten_cons, List.append_assoc, List.append_assoc]
      have harr : (['\n'] : Str) ++ ((ls.map (fun p => p ++ ['\n'])).flatten ++ B)
          = '\n' :: ((ls.map (fun p => p ++ ['\n'])).flatten ++ B) := rfl
      rw [harr, splitOnChar_sep_append '\n' l _ hl, ih hls, List.cons_append]

theorem dropLast_append_ne {α : Type} (L M : List α) (h : M ≠ []) :
    (L ++ M).dropLast = L ++ M.dropLast := by
  induction L with
  | nil => rfl
  | cons a L ih =>
      cases hq : L ++ M with
      | nil => exact absurd (List.append_eq_nil.mp hq).2 h
      | cons b l2 =>
          rw [List.cons_append, hq, List.dropLast_cons₂, ← hq, ih]
          rfl

theorem cacheLines_join_append (L : List Str) (B : Str)
    (hclean : ∀ l ∈ L, '\n' ∉ l) :
    cacheLines ((L.map (fun l => l ++ ['\n'])).flatten ++ B) = L ++ cacheLines B := by
  rw [cacheLines, cacheLines, split_join_append L B hclean]
  have hBne : splitOnChar '\n' B ≠ [] := splitOnChar_ne_nil '\n' B
  rw [List.getLast?_append_of_ne_nil L hBne]
  by_cases hlast : (splitOnChar '\n' B).getLast? = some []
  · rw [if_pos hlast, if_pos hlast, dropLast_append_ne L _ hBne]
  · rw [if_neg hlast, if_neg hlast]

theorem cacheLines_join (L : List Str) (hclean : ∀ l ∈ L, '\n' ∉ l) :
    cacheLines ((L.map (fun l => l ++ ['\n'])).flatten) = L := by
  have h := cacheLines_join_append L [] hclean
  have h0 : cacheLines ([] : Str) = [] := rfl
  rw [List.append_nil, h0, List.append_nil] at h
  exact h

/-- C2: appending serialized (row, col, value) triples to a cache whose
content loads as prev (and that is empty or newline-terminated, as every
content this cache ever writes is) never rewrites existing content, and a
subsequent load yields exactly the previous entries followed by the
appended triples in append order; duplicates are preserved as separate
lines. -/
theorem cache_roundtrip (content : Str) (prev entries : List (Nat × Nat × Str))
    (hload : load_cache content = some prev)
    (hterm : content = [] ∨ content.getLast? = some '\n')
    (hvals : ∀ e ∈ entries, validTok e.2.2) :
    cache_observations entries content
      = content ++ (entries.map serializeEntry).flatten ∧
    load_cache (cache_observations entries content) = some (prev ++ entries) := by
  obtain ⟨L, hclean, hcontent⟩ := exists_lines content hterm
  refine ⟨rfl, ?_⟩
  have hblob : (entries.map serializeEntry).flatten
      = ((entries.map lineOf).map (fun l => l ++ ['\n'])).flatten := by
    rw [List.map_map]
    rfl
  have hcleanblob : ∀ l ∈ entries.map lineOf, '\n' ∉ l := by
    intro l hl
    obtain ⟨e, he, hle⟩ := List.mem_map.mp hl
    exact hle ▸ lineOf_clean e (hvals e he)
  have hlinesC : cacheLines content = L := by
    rw [hcontent]
    exact cacheLines_join L hclean
  have hlines : cacheLines (cache_observations entries content)
      = L ++ entries.map lineOf := by
    rw [cache_observations, hblob, hcontent, cacheLines_join_append L _ hclean,
      cacheLines_join _ hcleanblob]
  rw [load_cache, hlines, parseAll_append]
  rw [load_cache, hlinesC] at hload
  rw [hload, parseAll_lines entries hvals]
  rfl

/-- Witness for C2: the spec's example entries appended to an empty cache
load back exactly, in order. -/
theorem cache_roundtrip_witness :
    load_cache (cache_observations
        [(1, 5, ['1', '3', '5', '6', '.', '7']), (37, 134, ['0', '.', '0'])] [])
      = some [(1, 5, ['1', '3', '5', '6', '.', '7']), (37, 134, ['0', '.', '0'])] := by
  have h := cache_roundtrip [] []
    [(1, 5, ['1', '3', '5', '6', '.', '7']), (37, 134, ['0', '.', '0'])]
    (by decide) (Or.inl rfl) (by decide)
  simpa using h.2

/-! Section: Batched observe-entries protocol

Embedding of CompassOracle._observe_entries together with
_populate_selected_reactions_file.  The oracle configuration collects the
fields of the CompassOracle instance that the method reads; the external
run is modelled by the output table it leaves behind (a pandas DataFrame
with a row index and column labels and a total value function); the
observable side effects are recorded as an effect trace, and an assertion
failure makes the result none.
-/

/-- The CompassOracle fields read by _observe_entries. -/
structure ObserveCfg where
  compass_args : List String
  temp_dir : String
  output_dir : String
  select_meta_subsystems : Bool
  meta_subsystem_models_dir : String
  meta_subsystem_model : Option String
  cell_names : List String
  reaction_ids : List String

/-- The reaction-score table parsed back after a run: its declared row
axis (DataFrame index), its declared column axis (DataFrame columns), and
its values, indexed first by table row then by table column. -/
structure OutputTable (V : Type) where
  index : List String
  columns : List String
  values : Nat → Nat → V

/-- The side effects _observe_entries can perform. -/
inductive OracleEffect (V : Type) where
  | writeSelectedFile (path : String) (lines : List String)
  | runCompassEntry (args : List String)
  | appendCache (rows cols : List Nat) (vals : List V)

/-- Whether an effect is the compass.main.entry invocation. -/
def isRunCompassEntry {V : Type} : OracleEffect V → Bool
  | .runCompassEntry _ => true
  | _ => false

/-- Whether an effect appends observations to the cache file. -/
def isAppendCache {V : Type} : OracleEffect V → Bool
  | .appendCache _ _ _ => true
  | _ => false

/-- The iteration output directory: temp dir (plus the meta-subsystem
model name when one is configured) joined with iteration_(iter+1). -/
def iterOutputDir (cfg : ObserveCfg) (iter : Nat) : String :=
  match cfg.meta_subsystem_model with
  | some m => cfg.temp_dir ++ "/" ++ m ++ "/iteration_" ++ toString (iter + 1)
  | none => cfg.temp_dir ++ "/iteration_" ++ toString (iter + 1)

/-- The path of the selection manifest written for the external tool:
os.path.join(iter_output_dir, 'selected_reactions.txt'). -/
def selectedReactionsFilePath (cfg : ObserveCfg) (iter : Nat) : String :=
  iterOutputDir cfg iter ++ "/selected_reactions.txt"

/-- One step of filling the defaultdict row_to_cols_mapping: append the
column to an existing row's list, or add a new row key at the end. -/
def addPair (m : List (Nat × List Nat)) (r c : Nat) : List (Nat × List Nat) :=
  if r ∈ m.map Prod.fst then
    m.map fun q => if q.1 = r then (q.1, q.2 ++ [c]) else q
  else m ++ [(r, [c])]

/-- The defaultdict built by _populate_selected_reactions_file, in python
dict insertion order: one entry per distinct row, carrying that row's
requested columns in request order. -/
def rowToColsMapping (pairs : List (Nat × Nat)) : List (Nat × List Nat) :=
  pairs.foldl (fun m p => addPair m p.1 p.2) []

/-- _populate_selected_reactions_file: one line per distinct requested
row, the row's cell name followed by the reaction ids of its requested
columns, comma-joined. -/
def populateSelectedReactions (cellNames reactionIds : List String)
    (rows cols : List Nat) : List String :=
  (rowToColsMapping (rows.zip cols)).map fun p =>
    String.intercalate ","
      (cellNames.getD p.1 "" :: p.2.map fun c => reactionIds.getD c "")

/-- The argument list _observe_entries hands to compass.main.entry: the
oracle's arguments with the turbo temp/meta flags, the selection manifest
path, and the iteration output directory set. -/
def observeArgs (cfg : ObserveCfg) (iter : Nat) : List String :=
  set_argument_list
    (set_argument_list
      (if cfg.select_meta_subsystems then
        set_argument_list
          (set_argument_list
            (set_argument_list
              (set_argument_list cfg.compass_args
                "--turbo-meta-subsystem-preprocess-cache-dir"
                (cfg.output_dir ++ "/meta_subsystem_cache"))
              "--turbo-meta-subsystem-models-dir" cfg.meta_subsystem_models_dir)
            "--turbo-meta-subsystem-model" (cfg.meta_subsystem_model.getD ""))
          "--turbo-meta-subsystem-model-temp-dir"
          (cfg.temp_dir ++ "/" ++ cfg.meta_subsystem_model.getD "")
      else set_argument_list cfg.compass_args "--turbo-temp-dir" cfg.temp_dir)
      "--selected-reactions-for-each-cell" (selectedReactionsFilePath cfg iter))
    "--output-dir" (iterOutputDir cfg iter)

/-- The matrix value the oracle reports for (row, col): the output table
is transposed relative to the oracle's cell-by-reaction convention. -/
def oracleValue {V : Type} (table : OutputTable V) (r c : Nat) : V :=
  table.values c r

/-- CompassOracle._observe_entries: assert the selection flag is not
already present; write the selection manifest; run compass.main.entry
once; parse the output table; assert both axes match the oracle's
identifiers; slice the values by numpy fancy indexing of the transposed
table (one value per requested pair, in request order); append them to
the cache; return them.  The first component is the effect trace up to
the point of success or assertion failure, the second the returned
values (none on assertion failure). -/
def observe_entries {V : Type} (cfg : ObserveCfg) (table : OutputTable V)
    (rows cols : List Nat) (iter : Nat) :
    List (OracleEffect V) × Option (List V) :=
  if "--selected-reactions-for-each-cell" ∈ cfg.compass_args then ([], none)
  else
    let pre : List (OracleEffect V) :=
      [.writeSelectedFile (selectedReactionsFilePath cfg iter)
          (populateSelectedReactions cfg.cell_names cfg.reaction_ids rows cols),
        .runCompassEntry (observeArgs cfg iter)]
    if table.columns = cfg.cell_names ∧ table.index = cfg.reaction_ids then
      let vals := (rows.zip cols).map fun p => table.values p.2 p.1
      (pre ++ [.appendCache rows cols vals], some vals)
    else (pre, none)

theorem zip_map_getElem {α β γ : Type} (f : α × β → γ) :
    ∀ (xs : List α) (ys : List β) (i : Nat) (x : α) (y : β),
      xs[i]? = some x → ys[i]? = some y →
      ((xs.zip ys).map f)[i]? = some (f (x, y)) := by
  intro xs
  induction xs with
  | nil => intro ys i x y hx _; simp at hx
  | cons a xs ih =>
      intro ys i x y hx hy
      cases ys with
      | nil => simp at hy
      | cons b ys =>
          cases i with
          | zero =>
              simp at hx hy
              simp [hx, hy]
          | succ j =>
              simp only [List.zip_cons_cons, List.map_cons,
                List.getElem?_cons_succ] at hx hy ⊢
              exact ih ys j x y hx hy

/-- C1: when observe returns values, there is one value per requested
(row, col) pair and the i-th value is the oracle-convention table value
at (rows i, cols i): caller order, not storage order. -/
theorem observe_order_preservation {V : Type} (cfg : ObserveCfg)
    (table : OutputTable V) (rows cols : List Nat) (iter : Nat) (vals : List V)
    (hlen : rows.length = cols.length)
    (hv : (observe_entries cfg table rows cols iter).2 = some vals) :
    vals.length = rows.length ∧
    ∀ (i r c : Nat), rows[i]? = some r → cols[i]? = some c →
      vals[i]? = some (oracleValue table r c) := by
  by_cases hflag : "--selected-reactions-for-each-cell" ∈ cfg.compass_args
  · simp [observe_entries, hflag] at hv
  · by_cases haxes : table.columns = cfg.cell_names ∧ table.index = cfg.reaction_ids
    · simp [observe_entries, hflag, haxes] at hv
      constructor
      · rw [← hv]
        simp [List.length_zip, hlen]
      · intro i r c hr hc
        rw [← hv]
        exact zip_map_getElem _ rows cols i r c hr hc
    · simp [observe_entries, hflag, haxes] at hv

/-- Concrete oracle configuration used by the witnesses. -/
def cfg0 : ObserveCfg :=
  { compass_args := ["compass", "--media", "m"]
    temp_dir := "tmp"
    output_dir := "out"
    select_meta_subsystems := false
    meta_subsystem_models_dir := ""
    meta_subsystem_model := none
    cell_names := ["cell0", "cell1", "cell2"]
    reaction_ids := ["r0", "r1", "r2", "r3", "r4", "r5", "r6", "r7"] }

/-- Concrete matching output table; the value at table position (i, j)
is the pair (i, j) itself, so slices identify their source entry. -/
def table0 : OutputTable (Nat × Nat) :=
  { index := ["r0", "r1", "r2", "r3", "r4", "r5", "r6", "r7"]
    columns := ["cell0", "cell1", "cell2"]
    values := fun i j => (i, j) }

/-- Witness for C1: observe([2,0,0],[1,5,7]) returns
[val(2,1), val(0,5), val(0,7)] in exactly that order. -/
theorem observe_order_preservation_witness :
    ([((1 : Nat), (2 : Nat)), (5, 0), (7, 0)] : List (Nat × Nat))[0]?
        = some (oracleValue table0 2 1) ∧
    ([((1 : Nat), (2 : Nat)), (5, 0), (7, 0)] : List (Nat × Nat))[1]?
        = some (oracleValue table0 0 5) ∧
    ([((1 : Nat), (2 : Nat)), (5, 0), (7, 0)] : List (Nat × Nat))[2]?
        = some (oracleValue table0 0 7) := by
  have h := observe_order_preservation cfg0 table0 [2, 0, 0] [1, 5, 7] 0
    [(1, 2), (5, 0), (7, 0)] (by decide) (by decide)
  exact ⟨h.2 0 2 1 (by decide) (by decide), h.2 1 0 5 (by decide) (by decide),
    h.2 2 0 7 (by decide) (by decide)⟩

/-- C5: under the method's precondition (the selection flag is not already
present), the effect trace of observe contains exactly one invocation of
the external tool's entry point, whatever the requested pairs are. -/
theorem observe_runs_entry_once {V : Type} (cfg : ObserveCfg)
    (table : OutputTable V) (rows cols : List Nat) (iter : Nat)
    (hpre : "--selected-reactions-for-each-cell" ∉ cfg.compass_args) :
    ((observe_entries cfg table rows cols iter).1.countP isRunCompassEntry) = 1 := by
  by_cases haxes : table.columns = cfg.cell_names ∧ table.index = cfg.reaction_ids <;>
    simp [observe_entries, hpre, haxes, List.countP_cons, List.countP_append,
      isRunCompassEntry]

/-- Witness for C5 at a concrete configuration and request. -/
theorem observe_runs_entry_once_witness :
    ((observe_entries cfg0 table0 [2, 0, 0] [1, 5, 7] 0).1.countP
      isRunCompassEntry) = 1 :=
  observe_runs_entry_once cfg0 table0 [2, 0, 0] [1, 5, 7] 0 (by decide)

/-- C6: if the parsed table's declared row axis differs from the oracle's
reaction ids or its declared column axis differs from the oracle's cell
names, observe fails the assertion: no values are returned and nothing is
appended to the cache; conversely values are returned only when both axes
match exactly. -/
theorem observe_axis_consistency {V : Type} (cfg : ObserveCfg)
    (table : OutputTable V) (rows cols : List Nat) (iter : Nat) :
    (table.index ≠ cfg.reaction_ids ∨ table.columns ≠ cfg.cell_names →
      (observe_entries cfg table rows cols iter).2 = none ∧
      ∀ e ∈ (observe_entries cfg table rows cols iter).1, isAppendCache e = false) ∧
    (∀ vals, (observe_entries cfg table rows cols iter).2 = some vals →
      table.index = cfg.reaction_ids ∧ table.columns = cfg.cell_names) := by
  by_cases hflag : "--selected-reactions-for-each-cell" ∈ cfg.compass_args
  · constructor
    · intro _
      simp [observe_entries, hflag]
    · intro vals hv
      simp [observe_entries, hflag] at hv
  · by_cases haxes : table.columns = cfg.cell_names ∧ table.index = cfg.reaction_ids
    · constructor
      · intro hmis
        rcases hmis with hmis | hmis
        · exact absurd haxes.2 hmis
        · exact absurd haxes.1 hmis
      · intro vals _
        exact ⟨haxes.2, haxes.1⟩
    · constructor
      · intro _
        refine ⟨by simp [observe_entries, hflag, haxes], ?_⟩
        intro e he
        simp [observe_entries, hflag, haxes] at he
        rcases he with he | he <;> simp [he, isAppendCache]
      · intro vals hv
        simp [observe_entries, hflag, haxes] at hv

/-! Section: Characterization of the selection manifest grouping (C4) -/

/-- Distinct elements in first-occurrence order, skipping those already
seen: the key order of a python dict filled by insertion. -/
def foAux : List Nat → List Nat → List Nat
  | _, [] => []
  | seen, a :: rest =>
      if a ∈ seen then foAux seen rest else a :: foAux (a :: seen) rest

/-- The distinct elements of a list in first-occurrence order. -/
def firstOccurrences (l : List Nat) : List Nat := foAux [] l

/-- All columns requested for a given row, in request order. -/
def colsForRow (pairs : List (Nat × Nat)) (r : Nat) : List Nat :=
  pairs.filterMap fun p => if p.1 = r then some p.2 else none

/-- Declarative description of the defaultdict: one entry per distinct
row in first-occurrence order, carrying all of that row's columns. -/
def groupSpec (pairs : List (Nat × Nat)) : List (Nat × List Nat) :=
  (firstOccurrences (pairs.map Prod.fst)).map fun r => (r, colsForRow pairs r)

theorem mem_foAux : ∀ (l seen : List Nat) (r : Nat),
    r ∈ foAux seen l ↔ (r ∈ l ∧ r ∉ seen) := by
  intro l
  induction l with
  | nil => intro seen r; simp [foAux]
  | cons a rest ih =>
      intro seen r
      by_cases ha : a ∈ seen
      · rw [foAux, if_pos ha, ih]
        constructor
        · rintro ⟨h1, h2⟩
          exact ⟨List.mem_cons_of_mem _ h1, h2⟩
        · rintro ⟨h1, h2⟩
          rcases List.mem_cons.mp h1 with h1 | h1
          · exact absurd (h1 ▸ ha) h2
          · exact ⟨h1, h2⟩
      · rw [foAux, if_neg ha]
        constructor
        · intro h
          rcases List.mem_cons.mp h with h | h
          · subst h
            exact ⟨List.mem_cons_self _ _, ha⟩
          · rw [ih] at h
            refine ⟨List.mem_cons_of_mem _ h.1, ?_⟩
            intro hs
            exact h.2 (List.mem_cons_of_mem _ hs)
        · rintro ⟨h1, h2⟩
          by_cases hr : r = a
          · subst hr
            exact List.mem_cons_self _ _
          · rcases List.mem_cons.mp h1 with h1 | h1
            · exact absurd h1 hr
            · apply List.mem_cons_of_mem
              rw [ih]
              refine ⟨h1, ?_⟩
              intro hs
              rcases List.mem_cons.mp hs with hs | hs
              · exact hr hs
              · exact h2 hs

theorem foAux_nodup : ∀ (l seen : List Nat), (foAux seen l).Nodup := by
  intro l
  induction l with
  | nil => intro seen; simp [foAux]
  | cons a rest ih =>
      intro seen
      by_cases ha : a ∈ seen
      · rw [foAux, if_pos ha]
        exact ih seen
      · rw [foAux, if_neg ha]
        refine List.nodup_cons.mpr ⟨?_, ih (a :: seen)⟩
        intro hmem
        exact ((mem_foAux rest (a :: seen) a).mp hmem).2 (List.mem_cons_self a seen)

theorem foAux_append : ∀ (l seen : List Nat) (r : Nat),
    foAux seen (l ++ [r])
      = foAux seen l ++ (if r ∈ seen ∨ r ∈ l then [] else [r]) := by
  intro l
  induction l with
  | nil =>
      intro seen r
      by_cases h : r ∈ seen <;> simp [foAux, h]
  | cons a rest ih =>
      intro seen r
      by_cases ha : a ∈ seen
      · have hiff : (r ∈ seen ∨ r ∈ rest) ↔ (r ∈ seen ∨ r ∈ a :: rest) := by
          constructor
          · rintro (h | h)
            · exact Or.inl h
            · exact Or.inr (List.mem_cons_of_mem _ h)
          · rintro (h | h)
            · exact Or.inl h
            · rcases List.mem_cons.mp h with h | h
              · exact Or.inl (h ▸ ha)
              · exact Or.inr h
        rw [List.cons_append, foAux, if_pos ha, ih, foAux, if_pos ha,
          if_congr hiff rfl rfl]
      · have hiff : (r ∈ a :: seen ∨ r ∈ rest) ↔ (r ∈ seen ∨ r ∈ a :: rest) := by
          simp only [List.mem_cons]
          tauto
        rw [List.cons_append, foAux, if_neg ha, ih, foAux, if_neg ha,
          List.cons_append, if_congr hiff rfl rfl]

theorem colsForRow_append (pairs : List (Nat × Nat)) (p : Nat × Nat) (r : Nat) :
    colsForRow (pairs ++ [p]) r
      = colsForRow pairs r ++ (if p.1 = r then [p.2] else []) := by
  rw [colsForRow, colsForRow, List.filterMap_append]
  congr 1
  by_cases h : p.1 = r <;> simp [h]

theorem colsForRow_not_mem (pairs : List (Nat × Nat)) (r : Nat)
    (h : r ∉ pairs.map Prod.fst) : colsForRow pairs r = [] := by
  induction pairs with
  | nil => rfl
  | cons p ps ih =>
      have hp : ¬ p.1 = r := fun he => h (by simp [he])
      have ht : r ∉ ps.map Prod.fst := fun hm => h (by simp [hm])
      rw [colsForRow, List.filterMap_cons, if_neg hp]
      exact ih ht

theorem groupSpec_keys (pairs : List (Nat × Nat)) :
    (groupSpec pairs).map Prod.fst = firstOccurrences (pairs.map Prod.fst) := by
  rw [groupSpec, List.map_map]
  have h : (Prod.fst ∘ fun r => (r, colsForRow pairs r)) = @id Nat :=
    funext fun r => rfl
  rw [h, List.map_id]

theorem groupSpec_append (pairs : List (Nat × Nat)) (r c : Nat) :
    groupSpec (pairs ++ [(r, c)]) = addPair (groupSpec pairs) r c := by
  have hmap : (pairs ++ [(r, c)]).map Prod.fst = pairs.map Prod.fst ++ [r] := by
    simp
  unfold addPair
  rw [groupSpec_keys]
  by_cases hmem : r ∈ pairs.map Prod.fst
  · have hmem2 : r ∈ firstOccurrences (pairs.map Prod.fst) := by
      rw [firstOccurrences, mem_foAux]
      exact ⟨hmem, by simp⟩
    rw [if_pos hmem2, groupSpec, hmap, firstOccurrences, foAux_append,
      if_pos (Or.inr hmem), List.append_nil, groupSpec, List.map_map]
    apply List.map_congr_left
    intro r2 _
    by_cases hr : r2 = r
    · subst hr
      simp [Function.comp, colsForRow_append]
    · have hr2 : ¬ r = r2 := fun he => hr he.symm
      simp [Function.comp, colsForRow_append, hr, hr2]
  · have hmem2 : r ∉ firstOccurrences (pairs.map Prod.fst) := by
      rw [firstOccurrences, mem_foAux]
      rintro ⟨h1, _⟩
      exact hmem h1
    have hcond : ¬ (r ∈ ([] : List Nat) ∨ r ∈ pairs.map Prod.fst) := by
      rintro (h | h)
      · simp at h
      · exact hmem h
    rw [if_neg hmem2, groupSpec, hmap, firstOccurrences, foAux_append,
      if_neg hcond, List.map_append]
    congr 1
    · apply List.map_congr_left
      intro r2 hr2
      have hr2mem : r2 ∈ pairs.map Prod.fst := ((mem_foAux _ _ _).mp hr2).1
      have hne : ¬ r = r2 := fun he => hmem (he ▸ hr2mem)
      rw [colsForRow_append]
      simp [hne]
    · rw [List.map_singleton, colsForRow_append,
        colsForRow_not_mem pairs r hmem]
      simp

theorem rowToColsMapping_eq (pairs : List (Nat × Nat)) :
    rowToColsMapping pairs = groupSpec pairs := by
  induction pairs using List.reverseRecOn with
  | nil => rfl
  | append_singleton l p ih =>
      obtain ⟨r, c⟩ := p
      rw [rowToColsMapping, List.foldl_append, List.foldl_cons, List.foldl_nil,
        groupSpec_append]
      rw [rowToColsMapping] at ih
      rw [ih]

/-- C4 (amended): the selection manifest is the file
selected_reactions.txt inside the iteration directory, and its lines are
exactly one line per distinct requested row, in first-occurrence order,
each carrying the row's identifier followed by the identifiers of all
columns requested for that row, comma-separated. -/
theorem populate_selected_grouping (cells rids : List String)
    (rows cols : List Nat) (cfg : ObserveCfg) (iter : Nat) :
    selectedReactionsFilePath cfg iter
      = iterOutputDir cfg iter ++ "/selected_reactions.txt" ∧
    populateSelectedReactions cells rids rows cols
      = (firstOccurrences ((rows.zip cols).map Prod.fst)).map (fun r =>
          String.intercalate ","
            (cells.getD r "" ::
              (colsForRow (rows.zip cols) r).map fun c => rids.getD c "")) ∧
    (firstOccurrences ((rows.zip cols).map Prod.fst)).Nodup := by
  refine ⟨rfl, ?_, foAux_nodup _ _⟩
  rw [populateSelectedReactions, rowToColsMapping_eq, groupSpec, List.map_map]
  rfl

/-- Example instance of C4's grouping: rows [0,0,2], cols [5,7,1] produce
one line for row 0 with columns 5 and 7 and one line for row 2 with
column 1, in that order. -/
theorem populate_selected_grouping_example :
    populateSelectedReactions ["c0", "c1", "c2"]
        ["r0", "r1", "r2", "r3", "r4", "r5", "r6", "r7"] [0, 0, 2] [5, 7, 1]
      = ["c0,r5,r7", "c2,r1"] := by
  decide

/-- C4 counterexample: the manifest file the code writes is named
selected_reactions.txt, not selected.txt as the claim states. -/
theorem selected_manifest_filename_counterexample :
    selectedReactionsFilePath cfg0 0 = "tmp/iteration_1/selected_reactions.txt" ∧
    selectedReactionsFilePath cfg0 0 ≠ "tmp/iteration_1/selected.txt" := by
  refine ⟨by decide, by decide⟩

/-- Output table whose declared row axis differs from cfg0's reaction
ids. -/
def tableBad : OutputTable Nat :=
  { index := ["zzz"]
    columns := ["cell0", "cell1", "cell2"]
    values := fun i j => i + j }

/-- Witness for C6: a mismatched row axis makes observe return no values
and append nothing. -/
theorem observe_axis_consistency_witness :
    (observe_entries cfg0 tableBad [0] [0] 0).2 = none ∧
    ∀ e ∈ (observe_entries cfg0 tableBad [0] [0] 0).1, isAppendCache e = false :=
  (observe_axis_consistency cfg0 tableBad [0] [0] 0).1 (Or.inl (by decide))

end TurboCompass
